import Mathlib

/-
  Verification development for the `claude_flow` retrieval / attention SQL layer
  (docs/ruvector-postgres/examples/similarity-search.sql and attention-ops.sql).

  Modelling conventions:
  * The `claude_flow.embeddings` table is a `List Doc` given in scan order,
    which for this store coincides with insertion / `created_at` order
    (the only ordering the SQL relies on, see `flash_attention_search`).
  * `embedding vector(384)` is `Option (List ℚ)`; `NULL` is `none`, and every
    search path first filters `embedding IS NOT NULL` exactly as the SQL does.
  * The pgvector cosine-distance operator `<=>` and the SQL `EXP` builtin are
    external extension primitives (their code is not part of this repository),
    so they are parameters `dist` and `expf` of the model; theorems assume of
    `expf` only what the real exponential satisfies (positivity and the
    exponential law) where they need it.
  * `ORDER BY` is modelled as a stable insertion sort over the scan order;
    SQL leaves tie order unspecified, and the stable sort is the canonical
    deterministic refinement of that (ties keep scan order).
  * UUIDs are modelled as ℕ; JSONB metadata as an association list of
    string pairs with `->>` as lookup and `@>` as containment.
-/

namespace ClaudeFlow

/-! ## A stable insertion sort (the model of `ORDER BY`) -/

/-- Stable insert: `x` is placed before the first element `y` it may precede
(`le x y = true`); on ties `le` must say `true` so the earlier row stays first. -/
def insertS {α : Type} (le : α → α → Bool) (x : α) : List α → List α
  | [] => [x]
  | y :: ys => if le x y then x :: y :: ys else y :: insertS le x ys

/-- Stable insertion sort. -/
def sortS {α : Type} (le : α → α → Bool) : List α → List α
  | [] => []
  | x :: xs => insertS le x (sortS le xs)

/-- First maximal element of a list together with the rest of the list
(selection step of a selection sort; ties pick the earliest element). -/
def extractTop {α : Type} (le : α → α → Bool) : List α → Option (α × List α)
  | [] => none
  | x :: xs =>
    match extractTop le xs with
    | none => some (x, [])
    | some (m, rest) => if le x m then some (x, xs) else some (m, x :: rest)

/-- Sort descending by a rational key (stable). `ORDER BY key DESC`, and also
`ORDER BY distance ASC` via `key := 1 - distance`. -/
def sortDesc {α : Type} (key : α → ℚ) : List α → List α :=
  sortS (fun a b => decide (key b ≤ key a))

/-- Evaluate a fallible computation on every list element; any failure fails
the whole query (the model of a runtime error raised mid-scan). -/
def traverseOpt {α β : Type} (f : α → Option β) : List α → Option (List β)
  | [] => some []
  | x :: xs =>
    match f x, traverseOpt f xs with
    | some y, some ys => some (y :: ys)
    | _, _ => none

/-! ## Data model -/

/-- A row of `claude_flow.embeddings`. -/
structure Doc where
  id : ℕ
  content : String
  emb : Option (List ℚ)
  meta : List (String × String)
  deriving DecidableEq, Repr

def hasEmb (d : Doc) : Bool := d.emb.isSome

def vec (d : Doc) : List ℚ := d.emb.getD []

/-- JSONB `->>` text lookup. -/
def mdGet (md : List (String × String)) (k : String) : Option String :=
  (md.find? (fun p => decide (p.1 = k))).map (·.2)

/-- JSONB containment `metadata @> filter` (a NULL filter accepts every row). -/
def mdContains (md : List (String × String)) : Option (List (String × String)) → Bool
  | none => true
  | some f => f.all (fun kv => decide (kv ∈ md))

/-! ## Result row types (the `RETURNS TABLE` shapes; `created_at` columns are
omitted since no claimed property reads them) -/

/-- `semantic_search` output row. -/
structure SearchRow where
  id : ℕ
  content : String
  sim : ℚ
  meta : List (String × String)
  deriving DecidableEq, Repr

/-- `attention_scores` output row. -/
structure AttnRow where
  id : ℕ
  content : String
  rawSc : ℚ
  weight : ℚ
  meta : List (String × String)
  deriving DecidableEq, Repr

/-- `self_attention` output row. -/
structure SelfRow where
  srcId : ℕ
  attId : ℕ
  headIdx : ℕ
  attn : ℚ
  srcContent : String
  attContent : String
  deriving DecidableEq, Repr

/-- `cross_attention` output row. -/
structure CrossRow where
  qId : ℕ
  kId : ℕ
  weight : ℚ
  qContent : String
  kContent : String
  kMeta : List (String × String)
  deriving DecidableEq, Repr

/-- `multihead_attention_aggregate` output row. -/
structure MHRow where
  id : ℕ
  content : String
  avgAttention : ℚ
  headScores : List ℚ
  meta : List (String × String)
  deriving DecidableEq, Repr

/-- `flash_attention_search` output row. -/
structure FlashRow where
  id : ℕ
  content : String
  attnScore : ℚ
  blkId : ℕ
  meta : List (String × String)
  deriving DecidableEq, Repr

/-- `rag_retrieve` output row. -/
structure RagRow where
  id : ℕ
  content : String
  coarseSim : ℚ
  exactSim : ℚ
  meta : List (String × String)
  deriving DecidableEq, Repr

/-- `cluster_search` output row. -/
structure ClusterRow where
  id : ℕ
  content : String
  bestSim : ℚ
  avgSim : ℚ
  matchCount : ℕ
  meta : List (String × String)
  deriving DecidableEq, Repr

/-- `mmr_search` output row. -/
structure MmrRow where
  id : ℕ
  content : String
  relevance : ℚ
  penalty : ℚ
  mmrScore : ℚ
  meta : List (String × String)
  deriving DecidableEq, Repr

section Ops

variable (dist : List ℚ → List ℚ → ℚ) (expf : ℚ → ℚ)

/-- `1 - (e.embedding <=> query_embedding)`: the cosine-similarity score every
function in both SQL files computes. -/
def rawScore (q : List ℚ) (d : Doc) : ℚ := 1 - dist (vec d) q

/-! ### similarity-search.sql §2: `semantic_search` -/

/-- `claude_flow.semantic_search(query, limit, min_similarity, category, agent)`:
filter `embedding IS NOT NULL`, similarity `≥ min_similarity`, optional
`->>'category'` / `->>'agent'` equality; `ORDER BY e.embedding <=> query`
(i.e. descending similarity); `LIMIT limit_count`. -/
def semanticSearch (corpus : List Doc) (q : List ℚ) (k : ℕ) (minSim : ℚ)
    (catF agentF : Option String) : List SearchRow :=
  let rows := (corpus.filter (fun d => hasEmb d
      && decide (minSim ≤ rawScore dist q d)
      && (match catF with
          | none => true
          | some c => decide (mdGet d.meta "category" = some c))
      && (match agentF with
          | none => true
          | some a => decide (mdGet d.meta "agent" = some a)))).map
    (fun d => { id := d.id, content := d.content, sim := rawScore dist q d,
                meta := d.meta })
  (sortDesc (fun r => r.sim) rows).take k

/-! ### similarity-search.sql §3: `rag_retrieve` -/

/-- `claude_flow.rag_retrieve(query, coarse_limit, final_limit, min_similarity)`:
stage 1 takes the top `coarse_limit` by `ORDER BY embedding <=> query`; stage 2
filters the candidates by `coarse_sim >= min_similarity` (where `coarse_sim`
and `exact_sim` are literally the same expression `1 - (embedding <=> query)`),
re-sorts by `exact_sim DESC` and takes `final_limit`. -/
def ragRetrieve (corpus : List Doc) (q : List ℚ) (coarseLimit finalLimit : ℕ)
    (minSim : ℚ) : List RagRow :=
  let docs := corpus.filter hasEmb
  let coarse := (sortDesc (fun d => rawScore dist q d) docs).take coarseLimit
  let surv := coarse.filter (fun d => decide (minSim ≤ rawScore dist q d))
  ((sortDesc (fun d => rawScore dist q d) surv).take finalLimit).map
    (fun d => { id := d.id, content := d.content, coarseSim := rawScore dist q d,
                exactSim := rawScore dist q d, meta := d.meta })

/-! ### similarity-search.sql §5: `cluster_search` -/

/-- The per-document group of `cluster_search`: similarities against every
query vector, pairs with similarity `≤ 0.5` discarded, survivors aggregated
(`max` / `avg` / `min` per the `CASE`, default `max`) — a document whose group
is empty produces no row (SQL `GROUP BY` builds no group from zero rows).
`COUNT(DISTINCT query_idx)` is the number of surviving pairs, each query index
occurring at most once per document. -/
def clusterRow (queries : List (List ℚ)) (method : String) (d : Doc) :
    Option ClusterRow :=
  let surv := (queries.map (fun qv => 1 - dist (vec d) qv)).filter
    (fun s => decide ((0.5 : ℚ) < s))
  if surv.isEmpty then none else
    some { id := d.id, content := d.content,
           bestSim := if method = "max" then surv.max?.getD 0
                      else if method = "avg" then surv.sum / (surv.length : ℚ)
                      else if method = "min" then surv.min?.getD 0
                      else surv.max?.getD 0,
           avgSim := surv.sum / (surv.length : ℚ),
           matchCount := surv.length, meta := d.meta }

/-- `claude_flow.cluster_search(query_embeddings, limit, aggregation_method)`:
the per-document groups, ranked descending by the `CASE`-selected aggregate,
truncated to `limit`. -/
def clusterSearch (corpus : List Doc) (queries : List (List ℚ)) (limit : ℕ)
    (method : String) : List ClusterRow :=
  (sortDesc (fun r => r.bestSim)
    ((corpus.filter hasEmb).filterMap (clusterRow dist queries method))).take limit

/-! ### similarity-search.sql §7: `mmr_search` -/

/-- `COALESCE((SELECT MAX(1 - (v <=> se)) FROM unnest(sel) AS se), 0)`:
maximal similarity of `v` to the already-selected embeddings, `0` when none
are selected yet. -/
def maxSimTo (v : List ℚ) (sel : List (List ℚ)) : ℚ :=
  ((sel.map (fun se => 1 - dist v se)).max?).getD 0

/-- The `ORDER BY` expression of the MMR loop:
`lambda * relevance - (1 - lambda) * maxSimToSelected`. -/
def mmrScoreOf (q : List ℚ) (lam : ℚ) (sel : List (List ℚ)) (d : Doc) : ℚ :=
  lam * rawScore dist q d - (1 - lam) * maxSimTo dist (vec d) sel

/-- The `FOR i IN 1..limit_count LOOP` of `claude_flow.mmr_search`: each pass
re-scans the corpus for documents with an embedding whose id is not yet
selected, takes the top-1 by the MMR score, emits it (its `diversity_penalty`
is the max similarity to the embeddings selected *before* it — the SQL slice
`selected_embeddings[1:len-1]` taken after the append), and recurses with the
id and embedding appended; `EXIT WHEN rec IS NULL` ends the loop early. -/
def mmrLoop (corpus : List Doc) (q : List ℚ) (lam : ℚ) :
    ℕ → List ℕ → List (List ℚ) → List MmrRow
  | 0, _, _ => []
  | fuel + 1, selIds, selEmbs =>
    let remaining := corpus.filter (fun d => hasEmb d && decide (d.id ∉ selIds))
    match (sortDesc (fun d => mmrScoreOf dist q lam selEmbs d) remaining).head? with
    | none => []
    | some r =>
      { id := r.id, content := r.content, relevance := rawScore dist q r,
        penalty := maxSimTo dist (vec r) selEmbs,
        mmrScore := lam * rawScore dist q r
          - (1 - lam) * maxSimTo dist (vec r) selEmbs,
        meta := r.meta } ::
        mmrLoop corpus q lam fuel (selIds ++ [r.id]) (selEmbs ++ [vec r])

/-- `claude_flow.mmr_search(query, limit_count, lambda)`. -/
def mmrSearch (corpus : List Doc) (q : List ℚ) (limit : ℕ) (lam : ℚ) :
    List MmrRow :=
  mmrLoop dist corpus q lam limit [] []

/-- Modelled from the spec: "ranking purely by relevance" — the corpus with an
embedding, ordered by descending cosine similarity to the query, truncated.
Comparison definition for the MMR degeneration claim. -/
def relevanceRanking (corpus : List Doc) (q : List ℚ) (limit : ℕ) : List Doc :=
  (sortDesc (fun d => rawScore dist q d) (corpus.filter hasEmb)).take limit

/-! ### attention-ops.sql §1: `attention_scores` -/

/-- The softmax denominator of `attention_scores`:
`SELECT SUM(EXP((1 - (embedding <=> query)) / temperature)) FROM embeddings
WHERE embedding IS NOT NULL`. Caveat: at `temperature = 0` the SQL raises
`division by zero` while computing this sum; ℚ's total division cannot fault,
so theorems quantifying over temperatures restrict to nonzero ones (the
claims about the softmax itself assume a positive temperature anyway). -/
def softmaxSum (corpus : List Doc) (q : List ℚ) (T : ℚ) : ℚ :=
  ((corpus.filter hasEmb).map (fun e => expf (rawScore dist q e / T))).sum

/-- The `a_weight` column:
`EXP((1 - (e.embedding <=> query)) / temperature) / NULLIF(softmax_sum, 0)`
(the SQL yields NULL on a zero denominator; we fold that into `0` — with a
real exponential the denominator of a non-empty corpus is strictly positive,
so the branch is dead in every theorem below). As for `softmaxSum`, the SQL's
`division by zero` at `temperature = 0` is collapsed by ℚ's total division,
so temperature-generic theorems assume a nonzero temperature. -/
def attnWeight (corpus : List Doc) (q : List ℚ) (T : ℚ) (e : Doc) : ℚ :=
  if softmaxSum dist expf corpus q T = 0 then 0
  else expf (rawScore dist q e / T) / softmaxSum dist expf corpus q T

/-- `claude_flow.attention_scores(query, limit_count, temperature)`:
one row per document with an embedding, `ORDER BY a_weight DESC LIMIT limit`. -/
def attentionScores (corpus : List Doc) (q : List ℚ) (limit : ℕ) (T : ℚ) :
    List AttnRow :=
  ((sortDesc (fun r => r.weight) ((corpus.filter hasEmb).map (fun e =>
    { id := e.id, content := e.content, rawSc := rawScore dist q e,
      weight := attnWeight dist expf corpus q T e, meta := e.meta })))).take limit

/-- Modelled from the spec: the numerically-stable softmax — "first subtracting
the corpus-wide maximum of `(1 − cosineDistance)/temperature` before
exponentiating, and then normalizing by the sum of the exponentials".
`xs` are the scaled scores of the whole corpus, `x` the scaled score of the
document in question. -/
def stableSoftmaxWeight (xs : List ℚ) (x : ℚ) : ℚ :=
  expf (x - xs.max?.getD 0) /
    ((xs.map (fun y => expf (y - xs.max?.getD 0))).sum)

/-! ### attention-ops.sql §2: `self_attention` -/

/-- The window-softmax weight of `self_attention`:
`EXP(score / T) / SUM(EXP(score / T)) OVER (PARTITION BY s_id, h_idx)`.
Document ids are unique (table key invariant), so the partition of a source
row is exactly its target rows, and every head's partition holds the same
scores (the head index enters no expression). -/
def selfWeight (corpus : List Doc) (T : ℚ) (s t : Doc) : ℚ :=
  expf ((1 - dist (vec s) (vec t)) / T) /
    ((corpus.filter hasEmb).map
      (fun t2 => expf ((1 - dist (vec s) (vec t2)) / T))).sum

/-- Final `ORDER BY ss.s_id, ss.h_idx, ss.attn_score DESC` of `self_attention`. -/
def selfCmp (a b : SelfRow) : Bool :=
  decide (a.srcId < b.srcId ∨ (a.srcId = b.srcId ∧
    (a.headIdx < b.headIdx ∨ (a.headIdx = b.headIdx ∧ b.attn ≤ a.attn))))

/-- `claude_flow.self_attention(source_ids, head_count, temperature)`:
sources are the corpus rows whose id is in `source_ids` (embedding present),
targets the whole embedded corpus, heads `1..head_count`; weights below the
`attn_score > 0.01` filter are pruned. -/
def selfAttention (corpus : List Doc) (sourceIds : List ℕ) (headCount : ℕ)
    (T : ℚ) : List SelfRow :=
  let sources := corpus.filter (fun d => hasEmb d && decide (d.id ∈ sourceIds))
  let rows := sources.flatMap (fun s =>
    ((List.range headCount).map (fun h => h + 1)).flatMap (fun h =>
      (corpus.filter hasEmb).map (fun t =>
        { srcId := s.id, attId := t.id, headIdx := h,
          attn := selfWeight dist expf corpus T s t,
          srcContent := s.content, attContent := t.content })))
  sortS selfCmp (rows.filter (fun r => decide ((0.01 : ℚ) < r.attn)))

/-! ### attention-ops.sql §3: `cross_attention` -/

/-- The `keys` CTE: embedded corpus rows passing the optional
`metadata @> key_value_filter` whose id is not among the query ids. -/
def crossKeys (corpus : List Doc) (queryIds : List ℕ)
    (kvF : Option (List (String × String))) : List Doc :=
  corpus.filter (fun d => hasEmb d && mdContains d.meta kvF
    && decide (d.id ∉ queryIds))

/-- The window-softmax weight of `cross_attention`:
`EXP(score / T) / SUM(EXP(score / T)) OVER (PARTITION BY q_id)`
(query ids unique, as for `selfWeight`). -/
def crossWeight (corpus : List Doc) (queryIds : List ℕ)
    (kvF : Option (List (String × String))) (T : ℚ) (qd kd : Doc) : ℚ :=
  expf ((1 - dist (vec qd) (vec kd)) / T) /
    ((crossKeys corpus queryIds kvF).map
      (fun k2 => expf ((1 - dist (vec qd) (vec k2)) / T))).sum

/-- Final `ORDER BY sa.q_id, sa.attn_weight DESC` of `cross_attention`. -/
def crossCmp (a b : CrossRow) : Bool :=
  decide (a.qId < b.qId ∨ (a.qId = b.qId ∧ b.weight ≤ a.weight))

/-- `claude_flow.cross_attention(query_ids, key_value_filter, temperature)`:
queries attend over keys (corpus minus queries, optionally metadata-filtered);
weights `≤ 0.01` are pruned. -/
def crossAttention (corpus : List Doc) (queryIds : List ℕ)
    (kvF : Option (List (String × String))) (T : ℚ) : List CrossRow :=
  let queries := corpus.filter (fun d => hasEmb d && decide (d.id ∈ queryIds))
  let rows := queries.flatMap (fun qd =>
    (crossKeys corpus queryIds kvF).map (fun kd =>
      { qId := qd.id, kId := kd.id,
        weight := crossWeight dist expf corpus queryIds kvF T qd kd,
        qContent := qd.content, kContent := kd.content, kMeta := kd.meta }))
  sortS crossCmp (rows.filter (fun r => decide ((0.01 : ℚ) < r.weight)))

/-! ### attention-ops.sql §4: `multihead_attention_aggregate` -/

/-- pgvector `subvector(v, start, count)` (1-based, `substring` semantics):
a window overrunning the vector's end is clamped to the end (`List.take`
already clamps); it is a runtime error — modelled as `none` — only when the
start lies past the vector's dimension or `count < 1`. -/
def subvector (v : List ℚ) (start count : ℕ) : Option (List ℚ) :=
  if 1 ≤ count ∧ start ≤ v.length then
    some ((v.drop (start - 1)).take count)
  else none

/-- The per-head scores of one document:
`1 - (subvector(e.embedding, (h-1)*head_dim + 1, head_dim) <=>
      subvector(query, (h-1)*head_dim + 1, head_dim))`
for `h` in `generate_series(1, num_heads)` (here `h = h_idx - 1` runs over
`List.range num_heads`); any failing slice aborts the query. -/
def headScoreList (q v : List ℚ) (numHeads headDim : ℕ) : Option (List ℚ) :=
  traverseOpt (fun h => do
    let a ← subvector v (h * headDim + 1) headDim
    let b ← subvector q (h * headDim + 1) headDim
    pure (1 - dist a b)) (List.range numHeads)

/-- One aggregated document row of `multihead_attention_aggregate`: the
per-head score vector `array_agg(head_score ORDER BY head_idx)` and its
`AVG(head_score)`. -/
def mhRow (q : List ℚ) (numHeads headDim : ℕ) (e : Doc) : Option MHRow := do
  let scores ← headScoreList dist q (vec e) numHeads headDim
  pure { id := e.id, content := e.content,
         avgAttention := scores.sum / (numHeads : ℚ),
         headScores := scores, meta := e.meta }

/-- `claude_flow.multihead_attention_aggregate(query, num_heads, head_dim,
limit_count)`: per document the per-head score vector and its `AVG`, ranked by
average descending; no parameter validation — a bad slice surfaces as a
runtime failure (`none`) during the scan. With `num_heads = 0` the
`generate_series` cross join is empty, so no aggregated rows exist at all. -/
def multiheadAttentionAggregate (corpus : List Doc) (q : List ℚ)
    (numHeads headDim limit : ℕ) : Option (List MHRow) :=
  if numHeads = 0 then some [] else
  (traverseOpt (mhRow dist q numHeads headDim) (corpus.filter hasEmb)).map
    (fun rows => (sortDesc (fun r : MHRow => r.avgAttention) rows).take limit)

/-! ### attention-ops.sql §5: `flash_attention_search` -/

/-- `((row_num - 1) / block_size + 1)`: the block of the document with 0-based
creation index `p.1` (`row_num = p.1 + 1`). -/
def blkOf (blockSize : ℕ) (p : ℕ × Doc) : ℕ := p.1 / blockSize + 1

/-- The block-local stable softmax of `flash_attention_search`: within the
block of `p`, `EXP(score - block_max) / NULLIF(SUM(EXP(score - block_max)), 0)`
(zero denominator folded to `0` as in `attnWeight`). -/
def flashWeight (idocs : List (ℕ × Doc)) (q : List ℚ) (blockSize : ℕ)
    (p : ℕ × Doc) : ℚ :=
  let blk := idocs.filter (fun r => decide (blkOf blockSize r = blkOf blockSize p))
  let M := ((blk.map (fun r => rawScore dist q r.2)).max?).getD 0
  let S := (blk.map (fun r => expf (rawScore dist q r.2 - M))).sum
  if S = 0 then 0 else expf (rawScore dist q p.2 - M) / S

/-- `claude_flow.flash_attention_search(query, block_size, limit_count)`:
documents numbered by creation order (the corpus list order), grouped into
blocks of `block_size`, block-locally softmaxed, then globally
`ORDER BY attn_score DESC LIMIT limit`. -/
def flashAttentionSearch (corpus : List Doc) (q : List ℚ)
    (blockSize limit : ℕ) : List FlashRow :=
  let idocs := (corpus.filter hasEmb).enum
  let rows := idocs.map (fun p =>
    { id := p.2.id, content := p.2.content,
      attnScore := flashWeight dist expf idocs q blockSize p,
      blkId := blkOf blockSize p, meta := p.2.meta })
  (sortDesc (fun r => r.attnScore) rows).take limit

end Ops

/-! ## Library lemmas about the `ORDER BY` model -/

section SortLemmas

variable {α β : Type}

theorem length_insertS (le : α → α → Bool) (x : α) (l : List α) :
    (insertS le x l).length = l.length + 1 := by
  induction l with
  | nil => rfl
  | cons y ys ih =>
    by_cases h : le x y = true
    · simp [insertS, h]
    · simp [insertS, h, ih]

theorem length_sortS (le : α → α → Bool) (l : List α) :
    (sortS le l).length = l.length := by
  induction l with
  | nil => rfl
  | cons x xs ih => simp [sortS, length_insertS, ih]

theorem mem_insertS {le : α → α → Bool} {a x : α} {l : List α} :
    a ∈ insertS le x l ↔ a = x ∨ a ∈ l := by
  induction l with
  | nil => simp [insertS]
  | cons y ys ih =>
    by_cases h : le x y = true
    · simp [insertS, h]
    · simp [insertS, h, ih]
      tauto

theorem mem_sortS {le : α → α → Bool} {a : α} {l : List α} :
    a ∈ sortS le l ↔ a ∈ l := by
  induction l with
  | nil => simp [sortS]
  | cons x xs ih => simp [sortS, mem_insertS, ih]

theorem perm_insertS (le : α → α → Bool) (x : α) (l : List α) :
    (insertS le x l).Perm (x :: l) := by
  induction l with
  | nil => simp [insertS]
  | cons y ys ih =>
    by_cases h : le x y = true
    · simp [insertS, h]
    · simp only [insertS, h]
      exact ((ih.cons y).trans (List.Perm.swap x y ys))

theorem perm_sortS (le : α → α → Bool) (l : List α) :
    (sortS le l).Perm l := by
  induction l with
  | nil => simp [sortS]
  | cons x xs ih => exact (perm_insertS le x (sortS le xs)).trans (ih.cons x)

theorem insertS_congr {le₁ le₂ : α → α → Bool} {x : α} {l : List α}
    (h : ∀ b ∈ l, le₁ x b = le₂ x b) : insertS le₁ x l = insertS le₂ x l := by
  induction l with
  | nil => rfl
  | cons y ys ih =>
    have hy : le₁ x y = le₂ x y := h y (by simp)
    by_cases hc : le₂ x y = true
    · simp [insertS, hc, hy ▸ hc]
    · have hc1 : ¬ le₁ x y = true := by rw [hy]; exact hc
      simp only [insertS, if_neg hc, if_neg hc1]
      rw [ih (fun b hb => h b (by simp [hb]))]

theorem sortS_congr {le₁ le₂ : α → α → Bool} {l : List α}
    (h : ∀ a ∈ l, ∀ b ∈ l, le₁ a b = le₂ a b) : sortS le₁ l = sortS le₂ l := by
  induction l with
  | nil => rfl
  | cons x xs ih =>
    have hs : sortS le₁ xs = sortS le₂ xs :=
      ih (fun a ha b hb => h a (by simp [ha]) b (by simp [hb]))
    simp only [sortS, hs]
    exact insertS_congr (fun b hb =>
      h x (by simp) b (by simp [mem_sortS.mp hb]))

theorem insertS_map (le : α → α → Bool) (f : β → α) (x : β) (l : List β) :
    insertS le (f x) (l.map f) = (insertS (fun a b => le (f a) (f b)) x l).map f := by
  induction l with
  | nil => rfl
  | cons y ys ih =>
    by_cases h : le (f x) (f y) = true
    · simp [insertS, h]
    · simp [insertS, h, ih]

theorem sortS_map (le : α → α → Bool) (f : β → α) (l : List β) :
    sortS le (l.map f) = (sortS (fun a b => le (f a) (f b)) l).map f := by
  induction l with
  | nil => rfl
  | cons x xs ih => simp [sortS, ih, insertS_map]

theorem pairwise_insertS (key : α → ℚ) (x : α) (l : List α)
    (h : l.Pairwise (fun a b => key b ≤ key a)) :
    (insertS (fun a b => decide (key b ≤ key a)) x l).Pairwise
      (fun a b => key b ≤ key a) := by
  induction l with
  | nil => simp [insertS]
  | cons y ys ih =>
    rcases List.pairwise_cons.mp h with ⟨hy, hys⟩
    by_cases hc : key y ≤ key x
    · simp only [insertS, decide_eq_true_eq, if_pos hc]
      refine List.pairwise_cons.mpr ⟨?_, h⟩
      intro b hb
      rcases List.mem_cons.mp hb with hb | hb
      · exact hb ▸ hc
      · exact le_trans (hy b hb) hc
    · simp only [insertS, decide_eq_true_eq, if_neg hc]
      refine List.pairwise_cons.mpr ⟨?_, ih hys⟩
      intro b hb
      rcases mem_insertS.mp hb with hb | hb
      · exact hb ▸ le_of_lt (lt_of_not_le hc)
      · exact hy b hb

theorem pairwise_sortDesc (key : α → ℚ) (l : List α) :
    (sortDesc key l).Pairwise (fun a b => key b ≤ key a) := by
  induction l with
  | nil => exact List.Pairwise.nil
  | cons x xs ih => exact pairwise_insertS key x _ ih

theorem extractTop_eq_none {le : α → α → Bool} {l : List α} :
    extractTop le l = none ↔ l = [] := by
  cases l with
  | nil => simp [extractTop]
  | cons x xs =>
    simp only [extractTop]
    cases h : extractTop le xs with
    | none => simp
    | some p =>
      by_cases hc : le x p.1 = true <;> simp [hc]

theorem extractTop_mem {le : α → α → Bool} {l rest : List α} {m : α}
    (h : extractTop le l = some (m, rest)) : m ∈ l := by
  induction l generalizing m rest with
  | nil => simp [extractTop] at h
  | cons x xs ih =>
    simp only [extractTop] at h
    cases hx : extractTop le xs with
    | none => rw [hx] at h; simp at h; simp [h.1]
    | some p =>
      rw [hx] at h
      by_cases hc : le x p.1 = true
      · simp [hc] at h; simp [h.1]
      · simp [hc] at h
        rcases p with ⟨m', rest'⟩
        have := ih (show extractTop le xs = some (m', rest') by simpa using hx)
        simp at h
        exact List.mem_cons_of_mem x (h.1 ▸ this)

theorem extractTop_length {le : α → α → Bool} {l rest : List α} {m : α}
    (h : extractTop le l = some (m, rest)) : rest.length + 1 = l.length := by
  induction l generalizing m rest with
  | nil => simp [extractTop] at h
  | cons x xs ih =>
    simp only [extractTop] at h
    cases hx : extractTop le xs with
    | none =>
      rw [hx] at h
      simp at h
      have : xs = [] := extractTop_eq_none.mp hx
      simp [h.2, this]
    | some p =>
      rw [hx] at h
      by_cases hc : le x p.1 = true
      · simp [hc] at h
        simp [h.2]
      · simp [hc] at h
        rcases p with ⟨m', rest'⟩
        have := ih (show extractTop le xs = some (m', rest') by simpa using hx)
        rw [← h.2]
        simp [← this]

theorem sortS_eq_extractTop (le : α → α → Bool) (l : List α) :
    sortS le l = match extractTop le l with
      | none => []
      | some (m, rest) => m :: sortS le rest := by
  induction l with
  | nil => rfl
  | cons x xs ih =>
    cases hx : extractTop le xs with
    | none =>
      have hxs : xs = [] := extractTop_eq_none.mp hx
      subst hxs
      simp [sortS, extractTop, insertS]
    | some p =>
      rcases p with ⟨m, rest⟩
      have hs : sortS le xs = m :: sortS le rest := by rw [ih, hx]
      by_cases hc : le x m = true
      · simp only [sortS, hs, insertS, if_pos hc, extractTop, hx]
        try simp [hc, ← hs]
      · simp only [sortS, hs, insertS, if_neg hc, extractTop, hx]
        try simp [hc, sortS]

end SortLemmas

/-! ## Helper lemmas: removal by unique id, sums, traversal -/

section HelperLemmas

variable {α β : Type}

theorem filter_ne_of_not_mem {l : List Doc} {i : ℕ}
    (h : i ∉ l.map Doc.id) : l.filter (fun d => decide (d.id ≠ i)) = l := by
  apply List.filter_eq_self.mpr
  intro d hd
  simp only [decide_eq_true_eq]
  intro he
  exact h (he ▸ List.mem_map_of_mem Doc.id hd)

theorem extractTop_filter_id {le : Doc → Doc → Bool} {l rest : List Doc} {m : Doc}
    (hnd : (l.map Doc.id).Nodup) (h : extractTop le l = some (m, rest)) :
    l.filter (fun d => decide (d.id ≠ m.id)) = rest := by
  induction l generalizing m rest with
  | nil => simp [extractTop] at h
  | cons x xs ih =>
    simp only [List.map_cons, List.nodup_cons] at hnd
    simp only [extractTop] at h
    cases hx : extractTop le xs with
    | none =>
      rw [hx] at h
      simp at h
      have hxs : xs = [] := extractTop_eq_none.mp hx
      subst hxs
      simp [h.1, h.2]
    | some p =>
      rw [hx] at h
      rcases p with ⟨m', rest'⟩
      by_cases hc : le x m' = true
      · simp [hc] at h
        obtain ⟨h1, h2⟩ := h
        subst h1
        subst h2
        have hself : (decide (x.id ≠ x.id)) = false := by simp
        simp only [List.filter_cons, hself, Bool.false_eq_true, if_false]
        exact filter_ne_of_not_mem hnd.1
      · simp [hc] at h
        obtain ⟨h1, h2⟩ := h
        have hm : m ∈ xs := h1 ▸ extractTop_mem hx
        have hne : (decide (x.id ≠ m.id)) = true := by
          simp only [decide_eq_true_eq]
          intro he
          exact hnd.1 (he ▸ List.mem_map_of_mem Doc.id hm)
        have hrec := ih hnd.2 (h1 ▸ hx)
        rw [← h2]
        simp only [List.filter_cons, hne, if_true, hrec]

theorem sum_map_div (l : List α) (f : α → ℚ) (c : ℚ) :
    (l.map (fun x => f x / c)).sum = (l.map f).sum / c := by
  induction l with
  | nil => simp
  | cons x xs ih => simp [ih, add_div]

theorem sum_map_pos {l : List α} {f : α → ℚ} (hne : l ≠ [])
    (hpos : ∀ x ∈ l, 0 < f x) : 0 < (l.map f).sum := by
  cases l with
  | nil => exact absurd rfl hne
  | cons x xs =>
    have hx : 0 < f x := hpos x (by simp)
    have hxs : 0 ≤ (xs.map f).sum := by
      apply List.sum_nonneg
      intro y hy
      rcases List.mem_map.mp hy with ⟨z, hz, rfl⟩
      exact le_of_lt (hpos z (by simp [hz]))
    simpa using add_pos_of_pos_of_nonneg hx hxs

theorem sum_map_mul_const (l : List α) (f : α → ℚ) (c : ℚ) :
    (l.map (fun x => f x * c)).sum = (l.map f).sum * c := by
  induction l with
  | nil => simp
  | cons x xs ih => simp [ih, add_mul]

theorem traverseOpt_some {f : α → Option β} {l : List α}
    (h : ∀ x ∈ l, (f x).isSome) :
    ∃ ys, traverseOpt f l = some ys ∧ ys.length = l.length := by
  induction l with
  | nil => exact ⟨[], rfl, rfl⟩
  | cons x xs ih =>
    rcases Option.isSome_iff_exists.mp (h x (by simp)) with ⟨y, hy⟩
    rcases ih (fun z hz => h z (by simp [hz])) with ⟨ys, hys, hlen⟩
    exact ⟨y :: ys, by simp [traverseOpt, hy, hys], by simp [hlen]⟩

theorem traverseOpt_none {f : α → Option β} {l : List α} {x : α}
    (hx : x ∈ l) (h : f x = none) : traverseOpt f l = none := by
  induction l with
  | nil => simp at hx
  | cons z zs ih =>
    rcases List.mem_cons.mp hx with hz | hz
    · subst hz
      simp [traverseOpt, h]
    · cases hz2 : f z with
      | none => simp [traverseOpt, hz2]
      | some _ => simp [traverseOpt, hz2, ih hz]

end HelperLemmas

/-! ## Exponential-shift lemma (exact-arithmetic heart of max-subtraction) -/

section ExpShift

variable {expf : ℚ → ℚ}

/-- Subtracting any constant `M` from every score before exponentiating leaves
the normalized softmax weight unchanged, for any function satisfying the
exponential law with positive values. -/
theorem stable_shift (hexp : ∀ a b, expf (a + b) = expf a * expf b)
    (hpos : ∀ x, 0 < expf x) (xs : List ℚ) (x M : ℚ) :
    expf (x - M) / ((xs.map (fun y => expf (y - M))).sum)
      = expf x / ((xs.map expf).sum) := by
  have hfac : ∀ y : ℚ, expf (y - M) = expf y * expf (-M) := by
    intro y
    rw [show y - M = y + (-M) by ring, hexp]
  have hsum : (xs.map (fun y => expf (y - M))).sum
      = (xs.map expf).sum * expf (-M) := by
    rw [show (fun y => expf (y - M)) = (fun y => expf y * expf (-M)) from funext hfac]
    exact sum_map_mul_const xs expf (expf (-M))
  rw [hfac, hsum]
  exact mul_div_mul_right _ _ (ne_of_gt (hpos (-M)))

end ExpShift

/-! ## Claim theorems -/

section MainTheorems

variable {dist : List ℚ → List ℚ → ℚ} {expf : ℚ → ℚ}

/-- **C1.** For every query vector, positive temperature and non-empty corpus,
the `attention_scores` weight of each embedded document equals the
numerically-stable softmax of the spec: subtract the corpus-wide maximum of
`(1 − cosineDistance)/temperature`, exponentiate, normalize by the sum of the
exponentials. (The SQL exponentiates the scaled scores directly; in exact
arithmetic that value coincides with the max-subtracted form.) -/
theorem attention_scores_stable_softmax
    (hexp : ∀ a b, expf (a + b) = expf a * expf b)
    (hpos : ∀ x, 0 < expf x)
    (corpus : List Doc) (q : List ℚ) (T : ℚ) (hT : 0 < T)
    (hne : corpus.filter hasEmb ≠ []) :
    ∀ e ∈ corpus.filter hasEmb,
      attnWeight dist expf corpus q T e
        = stableSoftmaxWeight expf
            ((corpus.filter hasEmb).map (fun d => rawScore dist q d / T))
            (rawScore dist q e / T) := by
  intro e _
  have hS : softmaxSum dist expf corpus q T
      = (((corpus.filter hasEmb).map (fun d => rawScore dist q d / T)).map expf).sum := by
    simp [softmaxSum, List.map_map, Function.comp_def]
  have hmapne : (corpus.filter hasEmb).map (fun d => rawScore dist q d / T) ≠ [] := by
    simpa using hne
  have hpos' :
      0 < (((corpus.filter hasEmb).map (fun d => rawScore dist q d / T)).map expf).sum :=
    sum_map_pos hmapne (fun x _ => hpos x)
  rw [attnWeight, if_neg (by rw [hS]; exact ne_of_gt hpos'), stableSoftmaxWeight,
    stable_shift hexp hpos, hS]

/-- Witness for C1 at a one-document corpus with `dist = 0`, `expf = 1`,
temperature `1`. -/
theorem attention_scores_stable_softmax_witness :
    attnWeight (fun _ _ => (0 : ℚ)) (fun _ => (1 : ℚ))
        [⟨1, "", some [1], []⟩] [1] 1 ⟨1, "", some [1], []⟩
      = stableSoftmaxWeight (fun _ => (1 : ℚ))
          (([⟨1, "", some [1], []⟩].filter hasEmb).map
            (fun d => rawScore (fun _ _ => (0 : ℚ)) [1] d / 1))
          (rawScore (fun _ _ => (0 : ℚ)) [1] ⟨1, "", some [1], []⟩ / 1) :=
  attention_scores_stable_softmax (fun _ _ => by norm_num) (fun _ => one_pos)
    [⟨1, "", some [1], []⟩] [1] 1 one_pos (by decide) _ (by decide)

/-- **C2 counterexample.** Two documents tied at similarity `1`, stored in scan
order `[id 2, id 1]`: `semantic_search` has no id tie-break in its `ORDER BY`,
so the output is not "descending similarity with ties broken by ascending id"
— the tied pair comes back as `[2, 1]`. -/
theorem semantic_search_tiebreak_counterexample :
    ¬ (semanticSearch (fun _ _ => (0 : ℚ))
        [⟨2, "", some [2], []⟩, ⟨1, "", some [1], []⟩] [0] 10 (1/2) none none).Pairwise
        (fun a b => a.sim > b.sim ∨ (a.sim = b.sim ∧ a.id < b.id)) := by
  intro h
  have heval : semanticSearch (fun _ _ => (0 : ℚ))
      [⟨2, "", some [2], []⟩, ⟨1, "", some [1], []⟩] [0] 10 (1/2) none none
      = [⟨2, "", 1, []⟩, ⟨1, "", 1, []⟩] := by with_unfolding_all decide
  rw [heval] at h
  rcases List.pairwise_cons.mp h with ⟨h1, _⟩
  rcases h1 ⟨1, "", 1, []⟩ (by simp) with h2 | h2
  · exact absurd h2 (by norm_num)
  · exact absurd h2.2 (by norm_num)

/-- **C2 (amended).** `semantic_search` returns only documents whose similarity
is at least `min_similarity` and that pass the metadata filters, sorted by
descending similarity — ties staying in scan order, with no id tie-break —
truncated to at most `k` results. -/
theorem semantic_search_spec (dist : List ℚ → List ℚ → ℚ)
    (corpus : List Doc) (q : List ℚ) (k : ℕ) (minSim : ℚ)
    (catF agentF : Option String) :
    (∀ r ∈ semanticSearch dist corpus q k minSim catF agentF,
        minSim ≤ r.sim
        ∧ (∀ c, catF = some c → mdGet r.meta "category" = some c)
        ∧ (∀ a, agentF = some a → mdGet r.meta "agent" = some a))
    ∧ (semanticSearch dist corpus q k minSim catF agentF).Pairwise
        (fun a b => b.sim ≤ a.sim)
    ∧ (semanticSearch dist corpus q k minSim catF agentF).length ≤ k := by
  refine ⟨?_, ?_, ?_⟩
  · intro r hr
    have hr' : r ∈ sortDesc (fun r : SearchRow => r.sim)
        ((corpus.filter _).map _) := List.take_subset _ _ hr
    have hr'' := mem_sortS.mp hr'
    rcases List.mem_map.mp hr'' with ⟨d, hd, rfl⟩
    rcases List.mem_filter.mp hd with ⟨_, hp⟩
    simp only [Bool.and_eq_true, decide_eq_true_eq] at hp
    refine ⟨hp.1.1.2, ?_, ?_⟩
    · intro c hc
      have := hp.1.2
      rw [hc] at this
      simpa using this
    · intro a ha
      have := hp.2
      rw [ha] at this
      simpa using this
  · exact List.Pairwise.sublist (List.take_sublist _ _)
      (pairwise_sortDesc (fun r : SearchRow => r.sim) _)
  · exact List.length_take_le _ _

/-- Witness for C2's amended theorem: sortedness at the counterexample input. -/
theorem semantic_search_spec_witness :
    (semanticSearch (fun _ _ => (0 : ℚ))
        [⟨2, "", some [2], []⟩, ⟨1, "", some [1], []⟩] [0] 10 (1/2) none none).Pairwise
      (fun a b => b.sim ≤ a.sim) :=
  (semantic_search_spec (fun _ _ => (0 : ℚ))
    [⟨2, "", some [2], []⟩, ⟨1, "", some [1], []⟩] [0] 10 (1/2) none none).2.1

/-- **C3.** In `self_attention` and `cross_attention`, within every attention
partition (one source document — and one head for `self_attention`, whose
partitions carry the same scores for every head), the softmax weights over the
partition's full target set sum to 1 before the `> 0.01` pruning, and every
returned row's weight exceeds 0.01. -/
theorem attention_partition_normalization
    (hpos : ∀ x, 0 < expf x)
    (corpus : List Doc) (sourceIds queryIds : List ℕ)
    (kvF : Option (List (String × String))) (headCount : ℕ) (T : ℚ) :
    (∀ s ∈ corpus.filter (fun d => hasEmb d && decide (d.id ∈ sourceIds)),
      corpus.filter hasEmb ≠ [] →
        ((corpus.filter hasEmb).map
          (fun t => selfWeight dist expf corpus T s t)).sum = 1)
    ∧ (∀ r ∈ selfAttention dist expf corpus sourceIds headCount T,
        (0.01 : ℚ) < r.attn)
    ∧ (∀ qd ∈ corpus.filter (fun d => hasEmb d && decide (d.id ∈ queryIds)),
      crossKeys corpus queryIds kvF ≠ [] →
        ((crossKeys corpus queryIds kvF).map
          (fun kd => crossWeight dist expf corpus queryIds kvF T qd kd)).sum = 1)
    ∧ (∀ r ∈ crossAttention dist expf corpus queryIds kvF T,
        (0.01 : ℚ) < r.weight) := by
  refine ⟨?_, ?_, ?_, ?_⟩
  · intro s _ hne
    have hS0 : ((corpus.filter hasEmb).map
        (fun t2 => expf ((1 - dist (vec s) (vec t2)) / T))).sum ≠ 0 :=
      ne_of_gt (sum_map_pos hne (fun x _ => hpos _))
    simp only [selfWeight]
    rw [sum_map_div, div_self hS0]
  · intro r hr
    simp only [selfAttention] at hr
    have hr' := mem_sortS.mp hr
    rcases List.mem_filter.mp hr' with ⟨_, hp⟩
    exact decide_eq_true_eq.mp hp
  · intro qd _ hne
    have hS0 : ((crossKeys corpus queryIds kvF).map
        (fun k2 => expf ((1 - dist (vec qd) (vec k2)) / T))).sum ≠ 0 :=
      ne_of_gt (sum_map_pos hne (fun x _ => hpos _))
    simp only [crossWeight]
    rw [sum_map_div, div_self hS0]
  · intro r hr
    simp only [crossAttention] at hr
    have hr' := mem_sortS.mp hr
    rcases List.mem_filter.mp hr' with ⟨_, hp⟩
    exact decide_eq_true_eq.mp hp

/-- Witness for C3: the one-document corpus, one source — its single-target
partition sums to 1. -/
theorem attention_partition_normalization_witness :
    (([⟨1, "", some [1], []⟩].filter hasEmb).map
      (fun t => selfWeight (fun _ _ => (0 : ℚ)) (fun _ => (1 : ℚ))
        [⟨1, "", some [1], []⟩] 1 ⟨1, "", some [1], []⟩ t)).sum = 1 :=
  (attention_partition_normalization (fun _ => one_pos)
    [⟨1, "", some [1], []⟩] [1] [] none 4 1).1
    ⟨1, "", some [1], []⟩ (by decide) (by decide)

/-! ### MMR loop helpers -/

theorem head?_mem_list {α : Type} {l : List α} {a : α} (h : l.head? = some a) :
    a ∈ l := by
  cases l with
  | nil => simp at h
  | cons x xs =>
    have hx : x = a := by simpa using h
    exact hx ▸ List.mem_cons_self x xs

theorem sortS_of_extractTop_some {α : Type} {le : α → α → Bool}
    {l rest : List α} {m : α} (h : extractTop le l = some (m, rest)) :
    sortS le l = m :: sortS le rest := by
  rw [sortS_eq_extractTop, h]

theorem filter_append_selected (corpus : List Doc) (selIds : List ℕ) (i : ℕ) :
    corpus.filter (fun d => hasEmb d && decide (d.id ∉ selIds ++ [i]))
      = (corpus.filter (fun d => hasEmb d && decide (d.id ∉ selIds))).filter
          (fun d => decide (d.id ≠ i)) := by
  rw [List.filter_filter]
  apply List.filter_congr
  intro d _
  by_cases h1 : hasEmb d
  · by_cases h2 : d.id ∈ selIds
    · simp [h1, h2]
    · by_cases h3 : d.id = i
      · simp [h1, h2, h3]
      · simp [h1, h2, h3]
  · simp [h1]

theorem remaining_nodup {corpus : List Doc}
    (hnd : ((corpus.filter hasEmb).map Doc.id).Nodup) (selIds : List ℕ) :
    ((corpus.filter (fun d => hasEmb d && decide (d.id ∉ selIds))).map Doc.id).Nodup := by
  have heq : corpus.filter (fun d => hasEmb d && decide (d.id ∉ selIds))
      = (corpus.filter hasEmb).filter (fun d => decide (d.id ∉ selIds)) := by
    rw [List.filter_filter]
    apply List.filter_congr
    intro d _
    exact Bool.and_comm _ _
  rw [heq]
  exact List.Nodup.sublist
    (List.Sublist.map Doc.id (List.filter_sublist _)) hnd

theorem mmrLoop_length (dist : List ℚ → List ℚ → ℚ) (corpus : List Doc)
    (q : List ℚ) (lam : ℚ)
    (hnd : ((corpus.filter hasEmb).map Doc.id).Nodup) :
    ∀ (fuel : ℕ) (selIds : List ℕ) (selEmbs : List (List ℚ)),
      (mmrLoop dist corpus q lam fuel selIds selEmbs).length
        = min fuel (corpus.filter (fun d => hasEmb d && decide (d.id ∉ selIds))).length := by
  intro fuel
  induction fuel with
  | zero => intro selIds selEmbs; simp [mmrLoop]
  | succ n ih =>
    intro selIds selEmbs
    cases hE : extractTop
        (fun a b => decide (mmrScoreOf dist q lam selEmbs b ≤ mmrScoreOf dist q lam selEmbs a))
        (corpus.filter (fun d => hasEmb d && decide (d.id ∉ selIds))) with
    | none =>
      have hrem : corpus.filter (fun d => hasEmb d && decide (d.id ∉ selIds)) = [] :=
        extractTop_eq_none.mp hE
      simp only [mmrLoop, hrem, sortDesc, sortS, List.head?_nil, List.length_nil]
      omega
    | some p =>
      rcases p with ⟨m, rest⟩
      have hsort : sortDesc (fun d => mmrScoreOf dist q lam selEmbs d)
          (corpus.filter (fun d => hasEmb d && decide (d.id ∉ selIds)))
          = m :: sortS
              (fun a b => decide (mmrScoreOf dist q lam selEmbs b ≤ mmrScoreOf dist q lam selEmbs a))
              rest :=
        sortS_of_extractTop_some hE
      have hnew : corpus.filter (fun d => hasEmb d && decide (d.id ∉ selIds ++ [m.id]))
          = rest := by
        rw [filter_append_selected]
        exact extractTop_filter_id (remaining_nodup hnd selIds) hE
      have hlen : rest.length + 1
          = (corpus.filter (fun d => hasEmb d && decide (d.id ∉ selIds))).length :=
        extractTop_length hE
      simp only [mmrLoop, hsort, List.head?_cons, List.length_cons]
      rw [ih (selIds ++ [m.id]) (selEmbs ++ [vec m]), hnew, ← hlen]
      omega

theorem mmrLoop_ids_nodup (dist : List ℚ → List ℚ → ℚ) (corpus : List Doc)
    (q : List ℚ) (lam : ℚ) :
    ∀ (fuel : ℕ) (selIds : List ℕ) (selEmbs : List (List ℚ)),
      ((mmrLoop dist corpus q lam fuel selIds selEmbs).map MmrRow.id).Nodup
      ∧ (∀ i ∈ (mmrLoop dist corpus q lam fuel selIds selEmbs).map MmrRow.id,
          i ∉ selIds) := by
  intro fuel
  induction fuel with
  | zero => intro selIds selEmbs; simp [mmrLoop]
  | succ n ih =>
    intro selIds selEmbs
    cases hh : (sortDesc (fun d => mmrScoreOf dist q lam selEmbs d)
        (corpus.filter (fun d => hasEmb d && decide (d.id ∉ selIds)))).head? with
    | none =>
      simp only [mmrLoop, hh]
      simp
    | some r =>
      have hr : r ∈ corpus.filter (fun d => hasEmb d && decide (d.id ∉ selIds)) :=
        mem_sortS.mp (head?_mem_list hh)
      have hrid : r.id ∉ selIds := by
        rcases List.mem_filter.mp hr with ⟨_, hp⟩
        simp only [Bool.and_eq_true, decide_eq_true_eq] at hp
        exact hp.2
      rcases ih (selIds ++ [r.id]) (selEmbs ++ [vec r]) with ⟨ihnd, ihnotin⟩
      refine ⟨?_, ?_⟩
      · simp only [mmrLoop, hh, List.map_cons]
        refine List.nodup_cons.mpr ⟨?_, ihnd⟩
        intro hmem
        have := ihnotin _ hmem
        simp at this
      · simp only [mmrLoop, hh, List.map_cons]
        intro i hi
        rcases List.mem_cons.mp hi with hi | hi
        · exact hi ▸ hrid
        · intro hin
          exact ihnotin i hi (by simp [hin])

theorem mmrSearch_length (dist : List ℚ → List ℚ → ℚ) (corpus : List Doc)
    (q : List ℚ) (limit : ℕ) (lam : ℚ)
    (hnodup : (corpus.map Doc.id).Nodup) :
    (mmrSearch dist corpus q limit lam).length
      = min limit (corpus.filter hasEmb).length := by
  have hnd : ((corpus.filter hasEmb).map Doc.id).Nodup :=
    List.Nodup.sublist (List.Sublist.map Doc.id (List.filter_sublist _)) hnodup
  have h := mmrLoop_length dist corpus q lam hnd limit [] []
  have hp : (fun d => hasEmb d && decide (d.id ∉ ([] : List ℕ))) = hasEmb := by
    funext d
    simp
  rw [mmrSearch, h, hp]

theorem mmrLoop_lambda_one (dist : List ℚ → List ℚ → ℚ) (corpus : List Doc)
    (q : List ℚ)
    (hnd : ((corpus.filter hasEmb).map Doc.id).Nodup) :
    ∀ (fuel : ℕ) (selIds : List ℕ) (selEmbs : List (List ℚ)),
      (mmrLoop dist corpus q 1 fuel selIds selEmbs).map MmrRow.id
        = ((sortDesc (fun d => rawScore dist q d)
            (corpus.filter (fun d => hasEmb d && decide (d.id ∉ selIds)))).take fuel).map
            Doc.id := by
  intro fuel
  induction fuel with
  | zero => intro selIds selEmbs; simp [mmrLoop]
  | succ n ih =>
    intro selIds selEmbs
    have hkey : (fun d => mmrScoreOf dist q 1 selEmbs d)
        = fun d => rawScore dist q d := by
      funext d
      simp [mmrScoreOf]
    cases hE : extractTop
        (fun a b => decide (rawScore dist q b ≤ rawScore dist q a))
        (corpus.filter (fun d => hasEmb d && decide (d.id ∉ selIds))) with
    | none =>
      have hrem : corpus.filter (fun d => hasEmb d && decide (d.id ∉ selIds)) = [] :=
        extractTop_eq_none.mp hE
      simp only [mmrLoop, hkey, hrem, sortDesc, sortS, List.head?_nil,
        List.take_nil, List.map_nil]
    | some p =>
      rcases p with ⟨m, rest⟩
      have hsort : sortDesc (fun d => rawScore dist q d)
          (corpus.filter (fun d => hasEmb d && decide (d.id ∉ selIds)))
          = m :: sortS (fun a b => decide (rawScore dist q b ≤ rawScore dist q a)) rest :=
        sortS_of_extractTop_some hE
      have hnew : corpus.filter (fun d => hasEmb d && decide (d.id ∉ selIds ++ [m.id]))
          = rest := by
        rw [filter_append_selected]
        exact extractTop_filter_id (remaining_nodup hnd selIds) hE
      simp only [mmrLoop, hkey, hsort, List.head?_cons, List.take_succ_cons,
        List.map_cons]
      rw [ih (selIds ++ [m.id]) (selEmbs ++ [vec m]), hnew]
      rfl

/-- **C5 counterexample.** `attention_scores` with the invalid temperature `−1`
on a one-document corpus returns a full result row; no `InvalidParameter`
check exists anywhere, contradicting "an invalid parameter is detected and
surfaced as an InvalidParameter error before any corpus scan; no results are
computed under such parameters". -/
theorem invalid_parameter_counterexample :
    (attentionScores (fun _ _ => (0 : ℚ)) (fun _ => (1 : ℚ))
        [⟨1, "", some [1], []⟩] [0] 10 (-1)).length = 1 := by
  with_unfolding_all decide

/-- **C5 (amended).** No upfront parameter validation is performed:
`attention_scores` returns `min(limit, corpusSize)` rows for every nonzero
temperature — negative ones included — and `mmr_search` returns
`min(limit, corpusSize)` rows for every lambda — values outside `[0,1]`
included; a zero limit merely yields an empty result. No `InvalidParameter`
check exists; the remaining invalid inputs die as runtime errors inside the
scan, not as validation (temperature `0` raises SQL division by zero, a
negative `LIMIT` errors in PostgreSQL), so this theorem quantifies only over
nonzero temperatures and its ℕ-typed limit leaves negative limits out of the
model. -/
theorem no_parameter_validation (dist : List ℚ → List ℚ → ℚ) (expf : ℚ → ℚ)
    (corpus : List Doc) (q : List ℚ) (limit : ℕ)
    (hnodup : (corpus.map Doc.id).Nodup) :
    ∀ T lam : ℚ, T ≠ 0 →
      (attentionScores dist expf corpus q limit T).length
          = min limit (corpus.filter hasEmb).length
      ∧ (mmrSearch dist corpus q limit lam).length
          = min limit (corpus.filter hasEmb).length := by
  intro T lam _
  refine ⟨?_, mmrSearch_length dist corpus q limit lam hnodup⟩
  simp [attentionScores, sortDesc, List.length_take, length_sortS]

/-- Witness for C5's amended theorem at temperature `−1` and lambda `2`. -/
theorem no_parameter_validation_witness :
    (attentionScores (fun _ _ => (0 : ℚ)) (fun _ => (1 : ℚ))
        [⟨1, "", some [1], []⟩] [0] 10 (-1)).length
        = min 10 ([(⟨1, "", some [1], []⟩ : Doc)].filter hasEmb).length
    ∧ (mmrSearch (fun _ _ => (0 : ℚ)) [⟨1, "", some [1], []⟩] [0] 10 (2 : ℚ)).length
        = min 10 ([(⟨1, "", some [1], []⟩ : Doc)].filter hasEmb).length :=
  no_parameter_validation (fun _ _ => (0 : ℚ)) (fun _ => (1 : ℚ))
    [⟨1, "", some [1], []⟩] [0] 10 (by decide) (-1) 2 (by norm_num)

/-- **C7.** `mmr_search` with `lambda = 1` selects and orders documents exactly
as ranking purely by relevance (descending cosine similarity) does, for every
corpus; and the first selected row's diversity penalty is `0` (the selected
set is empty at the first pick). -/
theorem mmr_lambda_one_matches_relevance (dist : List ℚ → List ℚ → ℚ)
    (corpus : List Doc) (q : List ℚ) (limit : ℕ)
    (hnodup : (corpus.map Doc.id).Nodup) :
    (mmrSearch dist corpus q limit 1).map MmrRow.id
      = (relevanceRanking dist corpus q limit).map Doc.id
    ∧ (∀ r, (mmrSearch dist corpus q limit 1).head? = some r → r.penalty = 0) := by
  have hnd : ((corpus.filter hasEmb).map Doc.id).Nodup :=
    List.Nodup.sublist (List.Sublist.map Doc.id (List.filter_sublist _)) hnodup
  have hp : (fun d => hasEmb d && decide (d.id ∉ ([] : List ℕ))) = hasEmb := by
    funext d
    simp
  constructor
  · have h := mmrLoop_lambda_one dist corpus q hnd limit [] []
    rw [mmrSearch, h, hp, relevanceRanking]
  · intro r hr
    cases limit with
    | zero => simp [mmrSearch, mmrLoop] at hr
    | succ n =>
      simp only [mmrSearch, mmrLoop] at hr
      cases hh : (sortDesc (fun d => mmrScoreOf dist q 1 [] d)
          (corpus.filter (fun d => hasEmb d && decide (d.id ∉ ([] : List ℕ))))).head? with
      | none => rw [hh] at hr; simp at hr
      | some m =>
        rw [hh] at hr
        simp only [List.head?_cons, Option.some_inj] at hr
        rw [← hr]
        simp [maxSimTo]

/-- Witness for C7 at a two-document corpus whose second document is more
distant. -/
theorem mmr_lambda_one_matches_relevance_witness :
    (mmrSearch (fun v _ => if v = [1] then 0 else (1/2 : ℚ))
        [⟨1, "", some [1], []⟩, ⟨2, "", some [2], []⟩] [0] 5 1).map MmrRow.id
      = (relevanceRanking (fun v _ => if v = [1] then 0 else (1/2 : ℚ))
        [⟨1, "", some [1], []⟩, ⟨2, "", some [2], []⟩] [0] 5).map Doc.id :=
  (mmr_lambda_one_matches_relevance (fun v _ => if v = [1] then 0 else (1/2 : ℚ))
    [⟨1, "", some [1], []⟩, ⟨2, "", some [2], []⟩] [0] 5 (by decide)).1

/-- **C10.** For every query, limit and lambda, `mmr_search` returns no
document id twice, and exactly `min(limit, number of embedded documents)`
rows (document ids are unique in the store). -/
theorem mmr_search_nodup_length (dist : List ℚ → List ℚ → ℚ)
    (corpus : List Doc) (q : List ℚ) (limit : ℕ) (lam : ℚ)
    (hnodup : (corpus.map Doc.id).Nodup) :
    ((mmrSearch dist corpus q limit lam).map MmrRow.id).Nodup
    ∧ (mmrSearch dist corpus q limit lam).length
        = min limit (corpus.filter hasEmb).length :=
  ⟨(mmrLoop_ids_nodup dist corpus q lam limit [] []).1,
   mmrSearch_length dist corpus q limit lam hnodup⟩

/-- Witness for C10: two embedded documents, one without an embedding,
limit 5, lambda 0. -/
theorem mmr_search_nodup_length_witness :
    ((mmrSearch (fun _ _ => (0 : ℚ))
        [⟨1, "", some [1], []⟩, ⟨2, "", some [2], []⟩, ⟨3, "", none, []⟩]
        [0] 5 0).map MmrRow.id).Nodup
    ∧ (mmrSearch (fun _ _ => (0 : ℚ))
        [⟨1, "", some [1], []⟩, ⟨2, "", some [2], []⟩, ⟨3, "", none, []⟩]
        [0] 5 0).length
        = min 5 ([(⟨1, "", some [1], []⟩ : Doc), ⟨2, "", some [2], []⟩,
            ⟨3, "", none, []⟩].filter hasEmb).length :=
  mmr_search_nodup_length (fun _ _ => (0 : ℚ))
    [⟨1, "", some [1], []⟩, ⟨2, "", some [2], []⟩, ⟨3, "", none, []⟩]
    [0] 5 0 (by decide)

/-! ### C8: rag_retrieve stage-2 behaviour -/

/-- **C8.** Stage 2 of `rag_retrieve` recomputes the exact cosine similarity on
the coarse candidate set (in the source `exact_sim` is the same expression as
`coarse_sim`, so the `min_similarity` filter is a filter on the exact
similarity), sorts descending by exact similarity, truncates to `final_limit`;
when fewer than `final_limit` candidates survive, exactly the survivors are
returned — no error is possible. -/
theorem rag_retrieve_stage2 (dist : List ℚ → List ℚ → ℚ)
    (corpus : List Doc) (q : List ℚ) (coarseLimit finalLimit : ℕ) (minSim : ℚ) :
    (∀ r ∈ ragRetrieve dist corpus q coarseLimit finalLimit minSim,
        minSim ≤ r.exactSim)
    ∧ (ragRetrieve dist corpus q coarseLimit finalLimit minSim).Pairwise
        (fun a b => b.exactSim ≤ a.exactSim)
    ∧ (ragRetrieve dist corpus q coarseLimit finalLimit minSim).length
        = min finalLimit
          (((sortDesc (fun d => rawScore dist q d) (corpus.filter hasEmb)).take
              coarseLimit).filter
            (fun d => decide (minSim ≤ rawScore dist q d))).length
    ∧ ((((sortDesc (fun d => rawScore dist q d) (corpus.filter hasEmb)).take
              coarseLimit).filter
            (fun d => decide (minSim ≤ rawScore dist q d))).length ≤ finalLimit →
        ((ragRetrieve dist corpus q coarseLimit finalLimit minSim).map RagRow.id).Perm
          ((((sortDesc (fun d => rawScore dist q d) (corpus.filter hasEmb)).take
              coarseLimit).filter
            (fun d => decide (minSim ≤ rawScore dist q d))).map Doc.id)) := by
  refine ⟨?_, ?_, ?_, ?_⟩
  · intro r hr
    simp only [ragRetrieve] at hr
    rcases List.mem_map.mp hr with ⟨d, hd, rfl⟩
    have hd' := mem_sortS.mp (List.take_subset _ _ hd)
    rcases List.mem_filter.mp hd' with ⟨_, hp⟩
    exact decide_eq_true_eq.mp hp
  · simp only [ragRetrieve]
    apply List.pairwise_map.mpr
    exact List.Pairwise.sublist (List.take_sublist _ _) (pairwise_sortDesc _ _)
  · simp [ragRetrieve, sortDesc, List.length_take, length_sortS]
  · intro hle
    simp only [ragRetrieve]
    rw [List.take_of_length_le (by rw [sortDesc, length_sortS]; exact hle),
      List.map_map]
    exact (perm_sortS _ _).map _
/-- Witness for C8: the length equation at a concrete one-document corpus. -/
theorem rag_retrieve_stage2_witness :
    (ragRetrieve (fun _ _ => (0 : ℚ)) [⟨1, "", some [1], []⟩] [0] 5 10 (1/2)).length
      = min 10
        (((sortDesc (fun d => rawScore (fun _ _ => (0 : ℚ)) [0] d)
            ([(⟨1, "", some [1], []⟩ : Doc)].filter hasEmb)).take 5).filter
          (fun d => decide ((1/2 : ℚ) ≤ rawScore (fun _ _ => (0 : ℚ)) [0] d))).length :=
  (rag_retrieve_stage2 (fun _ _ => (0 : ℚ)) [⟨1, "", some [1], []⟩] [0] 5 10 (1/2)).2.2.1

/-! ### C9: cluster_search with a duplicated query vector -/

theorem filterMap_map_of_comp {α β γ : Type} {g₁ : α → Option β}
    {g₂ : α → Option γ} {f : β → γ} (h : ∀ x, g₂ x = (g₁ x).map f)
    (l : List α) : l.filterMap g₂ = (l.filterMap g₁).map f := by
  induction l with
  | nil => rfl
  | cons x xs ih =>
    rw [List.filterMap_cons, List.filterMap_cons, h x]
    cases hx : g₁ x with
    | none => simpa using ih
    | some y => simp [ih]

theorem clusterRow_dup (dist : List ℚ → List ℚ → ℚ) (v : List ℚ) (d : Doc) :
    clusterRow dist [v, v] "avg" d
      = (clusterRow dist [v] "avg" d).map (fun r => { r with matchCount := 2 }) := by
  simp only [clusterRow]
  by_cases h : (0.5 : ℚ) < 1 - dist (vec d) v
  · simp only [List.map_cons, List.map_nil, List.filter_cons, List.filter_nil,
      decide_eq_true_eq, if_pos h, List.isEmpty_cons, Option.map_some]
    norm_num
  · simp [h]

/-- **C9.** `cluster_search` with the duplicated query list `[v, v]` and
aggregation `avg` ranks documents exactly as with the single list `[v]`; and
in every run, each returned row comes from a document with at least one
query-pair of similarity above `0.5` — pairs `≤ 0.5` are discarded before
aggregation and a document with none survives is excluded entirely. -/
theorem cluster_search_duplicate_query (dist : List ℚ → List ℚ → ℚ)
    (corpus : List Doc) (v : List ℚ) (limit : ℕ) :
    (clusterSearch dist corpus [v, v] limit "avg").map ClusterRow.id
      = (clusterSearch dist corpus [v] limit "avg").map ClusterRow.id
    ∧ (∀ (queries : List (List ℚ)) (method : String),
        ∀ r ∈ clusterSearch dist corpus queries limit method,
          ∃ d ∈ corpus, hasEmb d ∧ d.id = r.id
            ∧ ∃ qv ∈ queries, (0.5 : ℚ) < 1 - dist (vec d) qv) := by
  constructor
  · have hmap : (corpus.filter hasEmb).filterMap (clusterRow dist [v, v] "avg")
        = ((corpus.filter hasEmb).filterMap (clusterRow dist [v] "avg")).map
            (fun r => { r with matchCount := 2 }) :=
      filterMap_map_of_comp (clusterRow_dup dist v) _
    simp only [clusterSearch, sortDesc]
    rw [hmap, sortS_map]
    have hcong : sortS
        (fun a b : ClusterRow => decide
          ((({ b with matchCount := 2 } : ClusterRow)).bestSim
            ≤ (({ a with matchCount := 2 } : ClusterRow)).bestSim))
        ((corpus.filter hasEmb).filterMap (clusterRow dist [v] "avg"))
        = sortS (fun a b : ClusterRow => decide (b.bestSim ≤ a.bestSim))
        ((corpus.filter hasEmb).filterMap (clusterRow dist [v] "avg")) :=
      sortS_congr (fun a _ b _ => rfl)
    rw [hcong, ← List.map_take, List.map_map]
    exact List.map_congr_left (fun a _ => rfl)
  · intro queries method r hr
    rw [clusterSearch] at hr
    have hr1 : r ∈ (corpus.filter hasEmb).filterMap (clusterRow dist queries method) :=
      mem_sortS.mp (List.take_subset _ _ hr)
    rcases List.mem_filterMap.mp hr1 with ⟨d, hd, hrow⟩
    rcases List.mem_filter.mp hd with ⟨hdc, hemb⟩
    simp only [clusterRow] at hrow
    by_cases hemp : ((queries.map (fun qv => 1 - dist (vec d) qv)).filter
        (fun s => decide ((0.5 : ℚ) < s))).isEmpty
    · rw [if_pos hemp] at hrow
      exact absurd hrow (by simp)
    · rw [if_neg hemp] at hrow
      refine ⟨d, hdc, hemb, ?_, ?_⟩
      · rw [← Option.some_inj.mp hrow]
      · have hne : (queries.map (fun qv => 1 - dist (vec d) qv)).filter
            (fun s => decide ((0.5 : ℚ) < s)) ≠ [] := by
          intro he
          rw [he] at hemp
          exact hemp rfl
        rcases List.exists_mem_of_ne_nil _ hne with ⟨s, hs⟩
        rcases List.mem_filter.mp hs with ⟨hsm, hsp⟩
        rcases List.mem_map.mp hsm with ⟨qv, hqv, rfl⟩
        exact ⟨qv, hqv, decide_eq_true_eq.mp hsp⟩

/-- Witness for C9: the duplicated-query ranking equality at a concrete
one-document corpus. -/
theorem cluster_search_duplicate_query_witness :
    (clusterSearch (fun _ _ => (0 : ℚ)) [⟨1, "", some [1], []⟩] [[0], [0]] 10
        "avg").map ClusterRow.id
      = (clusterSearch (fun _ _ => (0 : ℚ)) [⟨1, "", some [1], []⟩] [[0]] 10
        "avg").map ClusterRow.id :=
  (cluster_search_duplicate_query (fun _ _ => (0 : ℚ)) [⟨1, "", some [1], []⟩]
    [0] 10).1

/-! ### C4: multihead_attention_aggregate dimension handling -/

/-- **C4 counterexample.** A 2-dimensional corpus queried with
`num_heads = 1, head_dim = 1` (product `1 ≠ 2`): no dimension check exists —
`multihead_attention_aggregate` returns a result row (scored on the first
vector component only) instead of failing with a dimension-mismatch or
invalid-parameter error. -/
theorem multihead_no_validation_counterexample :
    multiheadAttentionAggregate (fun _ _ => (0 : ℚ)) [⟨1, "", some [1, 1], []⟩]
        [1, 1] 1 1 10
      = some [⟨1, "", 1, [1], []⟩] := by
  with_unfolding_all decide

/-- **C4 (amended).** `multihead_attention_aggregate` performs no upfront
dimension validation and never requires `numHeads·headDim` to equal the vector
dimension: it returns a full result whenever every head's 1-based slice start
`(numHeads−1)·headDim + 1` lies within the dimension — slices overrunning the
vector's end are clamped (substring semantics), so even `numHeads·headDim >
dim` can return rows — and it fails only when some head's slice start lies
past the dimension, as a runtime slice error during the scan rather than a
parameter check. -/
theorem multihead_no_validation (dist : List ℚ → List ℚ → ℚ)
    (corpus : List Doc) (q : List ℚ) (dim numHeads headDim limit : ℕ)
    (hdim : ∀ d ∈ corpus, hasEmb d = true → (vec d).length = dim)
    (hq : q.length = dim) (hh : 1 ≤ headDim) (hn : 1 ≤ numHeads) :
    ((numHeads - 1) * headDim < dim →
      ∃ rows, multiheadAttentionAggregate dist corpus q numHeads headDim limit
          = some rows
        ∧ rows.length = min limit (corpus.filter hasEmb).length)
    ∧ (dim ≤ (numHeads - 1) * headDim → corpus.filter hasEmb ≠ [] →
        multiheadAttentionAggregate dist corpus q numHeads headDim limit = none) := by
  constructor
  · intro hle
    have hfit : ∀ e ∈ corpus.filter hasEmb,
        (mhRow dist q numHeads headDim e).isSome := by
      intro e he
      rcases List.mem_filter.mp he with ⟨hec, heb⟩
      have hv : (vec e).length = dim := hdim e hec heb
      have hscores : ∀ h ∈ List.range numHeads,
          ((do
            let a ← subvector (vec e) (h * headDim + 1) headDim
            let b ← subvector q (h * headDim + 1) headDim
            pure (1 - dist a b) : Option ℚ)).isSome := by
        intro h hmem
        have hlt : h < numHeads := List.mem_range.mp hmem
        have hA : h * headDim + 1 ≤ dim := by
          have hm : h * headDim ≤ (numHeads - 1) * headDim :=
            Nat.mul_le_mul_right _ (by omega)
          set a := h * headDim
          set b := (numHeads - 1) * headDim
          omega
        have hCa : 1 ≤ headDim ∧ h * headDim + 1 ≤ (vec e).length := by
          refine ⟨hh, ?_⟩
          rw [hv]
          exact hA
        have hCb : 1 ≤ headDim ∧ h * headDim + 1 ≤ q.length := by
          refine ⟨hh, ?_⟩
          rw [hq]
          exact hA
        have hsa : (subvector (vec e) (h * headDim + 1) headDim).isSome := by
          simp only [subvector]
          rw [if_pos hCa]
          rfl
        have hsb : (subvector q (h * headDim + 1) headDim).isSome := by
          simp only [subvector]
          rw [if_pos hCb]
          rfl
        rcases Option.isSome_iff_exists.mp hsa with ⟨a, ha⟩
        rcases Option.isSome_iff_exists.mp hsb with ⟨b, hb⟩
        simp [ha, hb]
      have hsome : (headScoreList dist q (vec e) numHeads headDim).isSome := by
        rcases traverseOpt_some hscores with ⟨ys, hys, _⟩
        rw [headScoreList, hys]
        rfl
      rcases Option.isSome_iff_exists.mp hsome with ⟨ys, hys2⟩
      simp [mhRow, hys2]
    rcases traverseOpt_some hfit with ⟨rows, hrows, hrlen⟩
    refine ⟨(sortDesc (fun r : MHRow => r.avgAttention) rows).take limit, ?_, ?_⟩
    · rw [multiheadAttentionAggregate, if_neg (by omega : ¬ numHeads = 0), hrows]
      rfl
    · simp [List.length_take, sortDesc, length_sortS, hrlen]
  · intro hge hne
    obtain ⟨k, rfl⟩ : ∃ k, numHeads = k + 1 := ⟨numHeads - 1, by omega⟩
    simp only [Nat.add_sub_cancel] at hge
    rcases List.exists_mem_of_ne_nil _ hne with ⟨e, he⟩
    rcases List.mem_filter.mp he with ⟨hec, heb⟩
    have hv : (vec e).length = dim := hdim e hec heb
    have hbad : subvector (vec e) (k * headDim + 1) headDim = none := by
      simp only [subvector]
      rw [if_neg]
      intro hc
      rcases hc with ⟨_, hc⟩
      rw [hv] at hc
      set p := k * headDim with hp
      omega
    have hg : ((do
        let a ← subvector (vec e) (k * headDim + 1) headDim
        let b ← subvector q (k * headDim + 1) headDim
        pure (1 - dist a b) : Option ℚ)) = none := by
      simp [hbad]
    have hhead : headScoreList dist q (vec e) (k + 1) headDim = none :=
      traverseOpt_none (List.mem_range.mpr (by omega)) hg
    have hrow : mhRow dist q (k + 1) headDim e = none := by
      simp [mhRow, hhead]
    have htrav : traverseOpt (mhRow dist q (k + 1) headDim)
        (corpus.filter hasEmb) = none :=
      traverseOpt_none he hrow
    simp [multiheadAttentionAggregate, htrav]

/-- Witness for C4's amended theorem: dimension 3, two heads of dimension 2 —
the product `4` exceeds the dimension, the second slice start `3` still lies
within it, the overrunning window is clamped and a row is returned. -/
theorem multihead_no_validation_witness :
    ∃ rows, multiheadAttentionAggregate (fun _ _ => (0 : ℚ))
        [⟨1, "", some [1, 1, 1], []⟩] [1, 1, 1] 2 2 10 = some rows
      ∧ rows.length
          = min 10 ([(⟨1, "", some [1, 1, 1], []⟩ : Doc)].filter hasEmb).length :=
  (multihead_no_validation (fun _ _ => (0 : ℚ)) [⟨1, "", some [1, 1, 1], []⟩]
    [1, 1, 1] 3 2 2 10 (by decide) (by decide) (by decide) (by decide)).1
    (by decide)

/-! ### C6: flash attention with one block -/

theorem sortDesc_take_map_proj {α β γ δ : Type} (key₁ : β → ℚ) (key₂ : γ → ℚ)
    (f : α → β) (g : α → γ) (p₁ : β → δ) (p₂ : γ → δ) (l : List α) (n : ℕ)
    (hkey : ∀ a ∈ l, key₁ (f a) = key₂ (g a))
    (hproj : ∀ a ∈ l, p₁ (f a) = p₂ (g a)) :
    ((sortDesc key₁ (l.map f)).take n).map p₁
      = ((sortDesc key₂ (l.map g)).take n).map p₂ := by
  rw [sortDesc, sortDesc, sortS_map, sortS_map]
  have hs : sortS (fun a b => decide (key₁ (f b) ≤ key₁ (f a))) l
      = sortS (fun a b => decide (key₂ (g b) ≤ key₂ (g a))) l :=
    sortS_congr (fun a ha b hb => by rw [hkey a ha, hkey b hb])
  rw [hs, ← List.map_take, ← List.map_take, List.map_map, List.map_map]
  apply List.map_congr_left
  intro a ha
  exact hproj a (mem_sortS.mp (List.take_subset _ _ ha))

/-- **C6.** When the embedded corpus holds at most `blockSize` documents,
`flash_attention_search` places every document in block 1, and its returned
`(id, attention weight)` ranking coincides exactly (in exact arithmetic) with
`attention_scores` — the global softmax at the default temperature 1 — at the
same limit. -/
theorem flash_attention_single_block
    (hexp : ∀ a b, expf (a + b) = expf a * expf b)
    (hpos : ∀ x, 0 < expf x)
    (corpus : List Doc) (q : List ℚ) (blockSize limit : ℕ)
    (hlen : (corpus.filter hasEmb).length ≤ blockSize) :
    (∀ r ∈ flashAttentionSearch dist expf corpus q blockSize limit, r.blkId = 1)
    ∧ (flashAttentionSearch dist expf corpus q blockSize limit).map
        (fun r => (r.id, r.attnScore))
      = (attentionScores dist expf corpus q limit 1).map
        (fun r => (r.id, r.weight)) := by
  have hblk : ∀ p ∈ (corpus.filter hasEmb).enum, blkOf blockSize p = 1 := by
    rw [List.forall_mem_enum]
    intro i hi
    simp only [blkOf]
    rw [Nat.div_eq_of_lt (lt_of_lt_of_le hi hlen)]
  have hfeq : ∀ p ∈ (corpus.filter hasEmb).enum,
      (corpus.filter hasEmb).enum.filter
        (fun r => decide (blkOf blockSize r = blkOf blockSize p))
        = (corpus.filter hasEmb).enum := by
    intro p hp
    apply List.filter_eq_self.mpr
    intro r hr
    simp only [decide_eq_true_eq]
    rw [hblk r hr, hblk p hp]
  have hsnd : ∀ {β : Type} (g : Doc → β),
      ((corpus.filter hasEmb).enum.map (fun r => g r.2))
        = (corpus.filter hasEmb).map g := by
    intro β g
    rw [show (fun r : ℕ × Doc => g r.2) = g ∘ Prod.snd from rfl, ← List.map_map,
      List.enum_map_snd]
  have hw : ∀ p ∈ (corpus.filter hasEmb).enum,
      flashWeight dist expf ((corpus.filter hasEmb).enum) q blockSize p
        = attnWeight dist expf corpus q 1 p.2 := by
    intro p hp
    have hne : corpus.filter hasEmb ≠ [] := by
      intro h0
      rw [h0] at hp
      simp [List.enum] at hp
    simp only [flashWeight]
    rw [hfeq p hp, hsnd (fun d => rawScore dist q d)]
    set M := (((corpus.filter hasEmb).map (fun d => rawScore dist q d)).max?).getD 0
      with hM
    rw [hsnd (fun d => expf (rawScore dist q d - M))]
    have hSpos : 0 < ((corpus.filter hasEmb).map
        (fun d => expf (rawScore dist q d - M))).sum :=
      sum_map_pos hne (fun x _ => hpos _)
    have hS0 : softmaxSum dist expf corpus q 1
        = ((corpus.filter hasEmb).map (fun e => expf (rawScore dist q e))).sum := by
      simp [softmaxSum]
    have hS0pos : 0 < ((corpus.filter hasEmb).map
        (fun e => expf (rawScore dist q e))).sum :=
      sum_map_pos hne (fun x _ => hpos _)
    rw [if_neg (ne_of_gt hSpos), attnWeight, hS0, if_neg (ne_of_gt hS0pos),
      div_one]
    rw [show (fun d => expf (rawScore dist q d - M))
        = (fun y => expf (y - M)) ∘ (fun d => rawScore dist q d) from rfl,
      ← List.map_map]
    rw [show (fun e => expf (rawScore dist q e))
        = expf ∘ (fun d => rawScore dist q d) from rfl, ← List.map_map]
    exact stable_shift hexp hpos _ _ _
  constructor
  · intro r hr
    simp only [flashAttentionSearch] at hr
    have hr1 := mem_sortS.mp (List.take_subset _ _ hr)
    rcases List.mem_map.mp hr1 with ⟨p, hp, rfl⟩
    exact hblk p hp
  · simp only [flashAttentionSearch, attentionScores]
    have hG := hsnd (fun e =>
      ({ id := e.id, content := e.content, rawSc := rawScore dist q e,
         weight := attnWeight dist expf corpus q 1 e, meta := e.meta } : AttnRow))
    rw [← hG]
    refine sortDesc_take_map_proj _ _ _ _ _ _ _ _
      (fun p hp => ?_) (fun p hp => ?_)
    · show flashWeight dist expf ((corpus.filter hasEmb).enum) q blockSize p
        = attnWeight dist expf corpus q 1 p.2
      exact hw p hp
    · show (p.2.id, flashWeight dist expf ((corpus.filter hasEmb).enum) q blockSize p)
        = (p.2.id, attnWeight dist expf corpus q 1 p.2)
      rw [hw p hp]

/-- Witness for C6: one document, block size 64 — both functions return the
single pair `(1, 1)`. -/
theorem flash_attention_single_block_witness :
    (flashAttentionSearch (fun _ _ => (0 : ℚ)) (fun _ => (1 : ℚ))
        [⟨1, "", some [1], []⟩] [0] 64 10).map (fun r => (r.id, r.attnScore))
      = (attentionScores (fun _ _ => (0 : ℚ)) (fun _ => (1 : ℚ))
        [⟨1, "", some [1], []⟩] [0] 10 1).map (fun r => (r.id, r.weight)) :=
  (flash_attention_single_block (fun _ _ => by norm_num) (fun _ => one_pos)
    [⟨1, "", some [1], []⟩] [0] 64 10 (by decide)).2

end MainTheorems

end ClaudeFlow
